import Mathlib

/-!
Verification of the RAG pipeline of this repository against its specification.

Python strings are modelled as lists of characters (`Str`), Python integers as
`Nat`/`Int`, Python float timestamps as `Int` seconds, dictionaries either as
structures with one field per key that the code reads, or as association lists.
External backends (embedding API, vector stores, the file system under the
cache, the md5 digest) are modelled as explicit parameters or state that the
translated code threads through.
-/

/-- Python strings, modelled as lists of characters. -/
abbrev Str := List Char

/-- Shorthand turning a Lean string literal into the `Str` model. -/
def lit (s : String) : Str := s.data

/-- ASCII whitespace, the model of the regex class backslash-s used by
`re.sub` in `QueryProcessor.process_query`. -/
def isWs (c : Char) : Bool :=
  c = ' ' || c = '\t' || c = '\n' || c = '\x0d' || c = '\x0b' || c = '\x0c'

/-- ASCII word characters, the model of the regex class backslash-w. -/
def isWordChar (c : Char) : Bool :=
  (('a' ≤ c && c ≤ 'z') || ('A' ≤ c && c ≤ 'Z') || ('0' ≤ c && c ≤ '9') || c = '_')

/-! ## TextChunker (src/rag/document/chunker.py) -/

/-- One probe of the backward scan of `TextChunker._find_split_point`:
the Python condition
`i < len(text) and ((text[i-1] == chr(46) and (i == len(text) or text[i] in [chr(32), chr(10)])) or text[i-1] == chr(10))`. -/
def splitCond (t : Str) (i : Nat) : Bool :=
  decide (i < t.length) &&
    ((t.getD (i - 1) ' ' = '.' &&
        (decide (i = t.length) || (t.getD i ' ' = ' ' || t.getD i ' ' = '\n'))) ||
      t.getD (i - 1) ' ' = '\n')

/-- The loop `for i in range(end, end - look_back, -1)` of
`TextChunker._find_split_point`: `k` is the number of probes left, `i` the
current index; the fallback returns `e`. -/
def findSplitGo (t : Str) (e : Nat) : Nat → Nat → Nat
  | _, 0 => e
  | i, k + 1 => if splitCond t i then i else findSplitGo t e (i - 1) k

/-- The `TextChunker._find_split_point(text, end)`: scan back at most
`min 100 end` positions for a sentence end or a newline, else cut at `end`. -/
def findSplitPoint (t : Str) (e : Nat) : Nat :=
  findSplitGo t e e (min 100 e)

/-- The `while start < len(text)` loop of `TextChunker.chunk_text`, with
explicit fuel (the Python loop need not terminate when
`chunk_overlap >= chunk_size`; with the fuel used by `chunkText` the model
computes the very same chunks whenever the loop terminates stepwise).
`Nat` subtraction makes `split_point - chunk_overlap` clamp at `0` exactly as
the Python code does. -/
def chunkTextGo (cs ov : Nat) (t : Str) : Nat → Nat → List Str
  | 0, _ => []
  | fuel + 1, start =>
    if start < t.length then
      if t.length ≤ start + cs then
        [t.drop start]
      else
        let p := findSplitPoint t (start + cs)
        (t.drop start).take (p - start) :: chunkTextGo cs ov t fuel (p - ov)
    else []

/-- The `TextChunker.chunk_text(text)` with `chunk_size = cs`,
`chunk_overlap = ov`. -/
def chunkText (cs ov : Nat) (t : Str) : List Str :=
  if t = [] then []
  else if t.length ≤ cs then [t]
  else chunkTextGo cs ov t t.length 0

/-- Concatenation of the chunks with the `ov`-character overlapping prefix of
every chunk after the first removed; the reconstruction the specification
describes. -/
def recomb (ov : Nat) : List Str → Str
  | [] => []
  | c :: rest => c ++ (rest.map (List.drop ov)).flatten

/-- The overlap relation between consecutive chunks: the first `ov` characters
of the later chunk are the last `ov` characters of the earlier one. -/
def overlapRel (ov : Nat) (a b : Str) : Prop :=
  b.take ov = a.drop (a.length - ov)

/-! ## ContextEnhancer (src/rag/query/enhancer.py) -/

/-- A retrieved document as the query layer passes it around: the dictionary
keys that `RAGQueryEngine.query` and `ContextEnhancer.enhance` read, with the
`.get` defaults already folded in (absent `text`/`source`/`title` become the
empty string, absent `score` becomes `0.0`).  `score` is the comparison key
used for sorting; `scoreStr` stands for the float rendering
`f"{score:.2f}"` of that same key, abstracted because no claim depends on the
digits of the rendering. -/
structure RetrievedDoc where
  id : Str
  score : Int
  scoreStr : Str
  text : Str
  source : Str
  title : Str
deriving DecidableEq

/-- The pattern `f"Content: {text}"` that `enhance` swaps for the truncated
content. -/
def contentPat (d : RetrievedDoc) : Str := lit "Content: " ++ d.text

/-- The part of the `doc_info` block of `enhance` before the content: the
`Document {i+1} (Score: ...)` line and the optional `Source:`/`Title:`
lines (`i` is the zero-based loop index). -/
def docHead (i : Nat) (d : RetrievedDoc) : Str :=
  let s1 := lit "Document " ++ Nat.toDigits 10 (i + 1) ++ lit " (Score: " ++
    d.scoreStr ++ lit "):\n"
  let s2 := if d.source ≠ [] then s1 ++ lit "Source: " ++ d.source ++ lit "\n" else s1
  if d.title ≠ [] then s2 ++ lit "Title: " ++ d.title ++ lit "\n" else s2

/-- The full `doc_info` block built for the result at loop index `i`. -/
def docInfoFor (i : Nat) (d : RetrievedDoc) : Str :=
  docHead i d ++ contentPat d ++ lit "\n\n"

/-- Python `str.replace(pat, repl)` on character lists: replace every
(leftmost, non-overlapping) occurrence.  The code only ever calls it with the
nonempty pattern `"Content: " + text`, so the guard `pat ≠ []` (needed for
termination) never deviates from Python. -/
def replaceAll (s pat repl : Str) : Str :=
  match s with
  | [] => []
  | c :: rest =>
    if h : pat ≠ [] ∧ pat.isPrefixOf (c :: rest) then
      repl ++ replaceAll ((c :: rest).drop pat.length) pat repl
    else
      c :: replaceAll rest pat repl
termination_by s.length
decreasing_by
· simp only [List.length_drop, List.length_cons]
  have hp : 1 ≤ pat.length := by
    cases hpat : pat with
    | nil => exact absurd hpat h.1
    | cons a l => simp
  omega
· simp

/-- The `for i, doc in enumerate(retrieved_docs)` loop of
`ContextEnhancer.enhance`, carrying the accumulated context.  A `break`
returns the context built so far; the truncation branch appends the block with
its content cut to the remaining budget plus a `"..."` marker.  `available`
is computed in `Int` because the Python expression can go negative. -/
def enhanceLoop (maxLen : Nat) : List RetrievedDoc → Nat → Str → Str
  | [], _, context => context
  | d :: rest, i, context =>
    let info := docInfoFor i d
    if maxLen < (context ++ info).length then
      let available : Int :=
        (maxLen : Int) - context.length - info.length + d.text.length
      if 100 < available then
        context ++ replaceAll info (contentPat d)
          (lit "Content: " ++ (d.text.take available.toNat ++ lit "..."))
      else context
    else enhanceLoop maxLen rest (i + 1) (context ++ info)

/-- The `ContextEnhancer.enhance(query, retrieved_docs)` with
`max_context_length = maxLen`. -/
def enhance (maxLen : Nat) (query : Str) (docs : List RetrievedDoc) : Str :=
  if docs = [] then lit "Query: " ++ query ++ lit "\n\nNo relevant documents found."
  else
    enhanceLoop maxLen docs 0
      (lit "Query: " ++ query ++ lit "\n\nRelevant information:\n\n")

/-- The `format_for_llm`: the fixed default system prompt is used when none is
given. -/
def formatForLlm (enhancedContext : Str) (systemPrompt : Option Str) : Str × Str :=
  (systemPrompt.getD (lit "You are a helpful assistant that answers questions based on the provided context. \nIf the context doesn\x27t contain the information needed to answer the question, say so. \nDon\x27t make up information that isn\x27t in the context."),
    enhancedContext)

/-- No occurrence of the content pattern of `d` starts before the real one
inside the block built at index `i` (rules out a `Source:`/`Title:` value
smuggling in a copy of `"Content: " + text`, which would make `str.replace`
substitute twice). -/
def earlyFree (i : Nat) (d : RetrievedDoc) : Bool :=
  (List.range (docHead i d).length).all
    (fun j => ! (contentPat d).isPrefixOf ((docInfoFor i d).drop j))

/-- The `earlyFree` for each document against its loop index, starting at `i`. -/
def occFreeB : Nat → List RetrievedDoc → Bool
  | _, [] => true
  | i, d :: rest => earlyFree i d && occFreeB (i + 1) rest

/-! ## QueryProcessor (src/rag/query/processor.py)

The regexes operate on the ASCII fragments the model covers: backslash-s is
`isWs`, backslash-w is `isWordChar`, `str.lower` is `Char.toLower`. -/

/-- Character-wise pass of `re.sub(r"\s+", " ", s)`: `prevWs` records whether
the previous character belonged to a whitespace run, so each run contributes
exactly one space. -/
def collapseWsGo (prevWs : Bool) : Str → Str
  | [] => []
  | c :: rest =>
    if isWs c then
      if prevWs then collapseWsGo true rest
      else ' ' :: collapseWsGo true rest
    else c :: collapseWsGo false rest

/-- The `re.sub(r"\s+", " ", s)`: collapse every whitespace run to one space. -/
def collapseWs (s : Str) : Str := collapseWsGo false s

/-- Python `str.strip()`: drop whitespace from both ends. -/
def pstrip (s : Str) : Str :=
  ((s.dropWhile isWs).reverse.dropWhile isWs).reverse

/-- The `QueryProcessor.process_query`: collapse whitespace and strip, replace
every character outside word characters, whitespace, `?` and `.` by a space,
then lowercase. -/
def processQuery (query : Str) : Str :=
  if query = [] then []
  else
    let p1 := pstrip (collapseWs query)
    let p2 := p1.map (fun c =>
      if isWordChar c || isWs c || c = '?' || c = '.' then c else ' ')
    p2.map Char.toLower

/-- The `question_words` list of `expand_query`. -/
def questionWords : List Str :=
  [lit "what", lit "who", lit "where", lit "when", lit "why", lit "how"]

/-- The auxiliary verbs of the `expand_query` regex alternation, in the order
the regex engine tries them. -/
def auxWords : List Str :=
  [lit "is", lit "are", lit "was", lit "were", lit "do", lit "does", lit "did"]

/-- The regex piece backslash-s-plus: at least one whitespace character, then
the (greedy) rest of the run consumed. -/
def wsPlus (s : Str) : Option Str :=
  match s with
  | [] => none
  | c :: _ => if isWs c then some (s.dropWhile isWs) else none

/-- The alternation `(is|are|was|were|do|does|did)` followed by
backslash-s-plus, tried left to right with backtracking exactly as the regex
engine does. -/
def consumeAux : List Str → Str → Option Str
  | [], _ => none
  | a :: more, s =>
    if a.isPrefixOf s then
      match wsPlus (s.drop a.length) with
      | some r => some r
      | none => consumeAux more s
    else consumeAux more s

/-- The `re.sub(f"^{word}\\s+(is|are|was|were|do|does|did)\\s+", "", p)`: remove
the anchored question prefix when the whole pattern matches, else return the
query unchanged. -/
def stripQuestionWord (w : Str) (p : Str) : Str :=
  if w.isPrefixOf p then
    match wsPlus (p.drop w.length) with
    | none => p
    | some r1 =>
      match consumeAux auxWords r1 with
      | none => p
      | some r2 => r2
  else p

/-- The `for word in question_words` loop of `expand_query`: a variant is
appended whenever the processed query starts with the question word and the
substitution changed it. -/
def questionVariants (p : Str) : List Str :=
  questionWords.filterMap (fun w =>
    if w.isPrefixOf p then
      let without := stripQuestionWord w p
      if without ≠ p then some without else none
    else none)

/-- Character-wise pass of Python `str.split()`: `cur` accumulates the word
in progress; whitespace closes it, and no empty words are emitted. -/
def splitWsGo (cur : Str) : Str → List Str
  | [] => if cur = [] then [] else [cur]
  | c :: rest =>
    if isWs c then
      if cur = [] then splitWsGo [] rest
      else cur :: splitWsGo [] rest
    else splitWsGo (cur ++ [c]) rest

/-- Python `str.split()` with no separator: split on whitespace runs,
dropping empty pieces. -/
def splitWs (s : Str) : List Str := splitWsGo [] s

/-- The `common_words` stop list of `expand_query`. -/
def commonWords : List Str :=
  [lit "the", lit "a", lit "an", lit "and", lit "or", lit "but", lit "in",
    lit "on", lit "at", lit "to", lit "for", lit "with", lit "by", lit "about"]

/-- The key-terms variant: built only when the query has more than three
words and more than two non-stop words remain. -/
def keyTermsVariant (p : Str) : List Str :=
  let words := splitWs p
  if 3 < words.length then
    let keyWords := words.filter (fun w => ! commonWords.contains w)
    if 2 < keyWords.length then [List.intercalate [' '] keyWords] else []
  else []

/-- The `list(dict.fromkeys(xs))`: deduplicate keeping first occurrences. -/
def dedupStrGo (seen : List Str) : List Str → List Str
  | [] => []
  | x :: xs =>
    if seen.contains x then dedupStrGo seen xs
    else x :: dedupStrGo (x :: seen) xs

/-- The `QueryProcessor.expand_query(query)` with configuration flag
`expand_queries = expand`.  Note the disabled (or empty-query) early return
hands back the argument itself, unprocessed. -/
def expandQuery (expand : Bool) (query : Str) : List Str :=
  if query = [] ∨ expand = false then [query]
  else
    let p := processQuery query
    let variants := [p] ++ questionVariants p ++
      (if p.contains '?' then [p.filter (fun c => c != '?')] else []) ++
      keyTermsVariant p
    dedupStrGo [] variants

/-! ## RAGQueryEngine (src/rag/query/engine.py) -/

/-- The dedup loop of `RAGQueryEngine.query`: `seen_ids` grows with every new
id, and a result is kept only the first time its id appears. -/
def dedupRGo (seen : List Str) : List RetrievedDoc → List RetrievedDoc
  | [] => []
  | r :: rest =>
    if seen.contains r.id then dedupRGo seen rest
    else r :: dedupRGo (r.id :: seen) rest

/-- The dictionary `RAGQueryEngine.query` returns. -/
structure EngineResult where
  query : Str
  processedQuery : Str
  documents : List RetrievedDoc
  enhancedContext : Str

/-- The `RAGQueryEngine.query(query_text, top_k, filter)`.  The per-variant call
`document_processor.query(expanded_query, top_k, filter)` is the boundary to
the retrieval stack, modelled by the function `retrieve` (already applied to
the fixed `top_k` and `filter` of this call).  The engine is constructed with
`expand_queries=True` and `max_context_length=4000`.  The sort mirrors
`sorted(unique_results, key=lambda x: x.get("score", 0.0), reverse=True)`,
stable and descending on the score key. -/
def engineQuery (retrieve : Str → List RetrievedDoc) (queryText : Str)
    (topK : Nat) : EngineResult :=
  let processed := processQuery queryText
  let expanded := expandQuery true processed
  let allResults := (expanded.map retrieve).flatten
  let unique := dedupRGo [] allResults
  let sortedResults := unique.mergeSort (fun a b => decide (b.score ≤ a.score))
  let top := sortedResults.take topK
  ⟨queryText, processed, top, enhance 4000 queryText top⟩

/-! ## DocumentCache (src/rag/document/cache.py)

The cache directory is modelled as an association list from file path to the
stored document plus its `_cached_time` write stamp; `_get_cache_path` hashes
the document id through the abstracted md5 digest.  File system exceptions,
which the code catches per operation, are modelled by the flags of
`CacheFs`. -/

/-- Occurrence of an I/O exception in each kind of cache file operation. -/
structure CacheFs where
  readFail : Bool
  writeFail : Bool
  removeFail : Bool
deriving DecidableEq

/-- The cache directory contents. -/
def CacheSt (α : Type) : Type := List (Str × α × Int)

/-- File presence and content for a path (first entry wins, matching the
overwrite-by-cons used in `cacheStore`). -/
def cacheLookup {α : Type} (st : CacheSt α) (path : Str) : Option (α × Int) :=
  match st.find? (fun e => e.1 == path) with
  | none => none
  | some e => some e.2

/-- The `DocumentCache.get(doc_id)`: absent file or a read error yields `none`;
an entry older than `ttl` (strictly) at read time is treated as absent; the
`_cached_time` stamp is stripped from what is returned. -/
def cacheGet {α : Type} (md5Hex : Str → Str) (io : CacheFs) (ttl now : Int)
    (st : CacheSt α) (docId : Str) : Option α :=
  match cacheLookup st (md5Hex docId) with
  | none => none
  | some (doc, cachedTime) =>
    if io.readFail then none
    else if ttl < now - cachedTime then none
    else some doc

/-- The `DocumentCache.store(doc_id, document)`: write the document with the
current time stamp, overwriting; a write error returns `false` and leaves the
directory unchanged. -/
def cacheStore {α : Type} (md5Hex : Str → Str) (io : CacheFs) (now : Int)
    (st : CacheSt α) (docId : Str) (doc : α) : CacheSt α × Bool :=
  if io.writeFail then (st, false)
  else ((md5Hex docId, doc, now) :: st, true)

/-- The `DocumentCache.invalidate(doc_id)`: a missing file is success; a present
file is removed, with a removal error returning `false`. -/
def cacheInvalidate {α : Type} (md5Hex : Str → Str) (io : CacheFs)
    (st : CacheSt α) (docId : Str) : CacheSt α × Bool :=
  match cacheLookup st (md5Hex docId) with
  | none => (st, true)
  | some _ =>
    if io.removeFail then (st, false)
    else (st.filter (fun e => ! (e.1 == md5Hex docId)), true)

/-! ## Embedding provider and service
(src/rag/embedding/openai.py, src/rag/embedding/service.py)

The backend embeddings API returns one vector per input, in input order (the
OpenAI embeddings contract); `embedOf` models that response and `ok` models
whether the call raised.  Vector entries are abstracted to integers: no claim
depends on their values beyond the zero fallback. -/

/-- One embedding provider: backend behaviour plus its fixed dimension. -/
structure Provider where
  ok : Bool
  embedOf : Str → List Int
  dim : Nat

/-- The `OpenAIEmbedding.generate_batch(texts)`: the backend response on success,
one zero vector of length `dimension` per input on a raised error. -/
def generateBatch (p : Provider) (texts : List Str) : List (List Int) :=
  if p.ok then texts.map p.embedOf
  else List.replicate texts.length (List.replicate p.dim 0)

/-- The `EmbeddingService.generate_embeddings(texts)`: delegate to the current
model, or return `[]` when none is set. -/
def serviceGenerateEmbeddings (current : Option Provider)
    (texts : List Str) : List (List Int) :=
  match current with
  | none => []
  | some p => generateBatch p texts

/-! ## DocumentProcessor (src/rag/document/processor.py)

Documents are Python dictionaries; the pipeline reads the keys `id`, `text`,
`metadata` and `embedding`, modelled as the fields of `PDoc` (the `id` and
`embedding` keys may be absent).  Metadata values cover the shapes the
pipeline itself handles: scalar strings, scalar integers, and the
`{"chunk": {"index": i, "total": n}}` mapping the chunker writes. -/

/-- A metadata value. -/
inductive MVal where
  | s (v : Str)
  | n (k : Nat)
  | chunkInfo (index total : Nat)
deriving DecidableEq

/-- A document dictionary as the processor passes it around. -/
structure PDoc where
  id : Option Str
  text : Str
  metadata : List (Str × MVal)
  embedding : Option (List Int)
deriving DecidableEq

/-- Python dict assignment `m[k] = v`: overwrite in place when the key is
present (dicts keep insertion order), else append. -/
def setKey (m : List (Str × MVal)) (k : Str) (v : MVal) : List (Str × MVal) :=
  if m.any (fun p => p.1 == k) then
    m.map (fun p => if p.1 == k then (p.1, v) else p)
  else m ++ [(k, v)]

/-- The `TextChunker.chunk_documents(documents)`: skip documents with empty text;
chunk the rest, stamping each chunk metadata with the chunk index and total
and copying every field other than `text` and `metadata` (here: `id` and
`embedding`) unchanged from the source document. -/
def chunkDocuments (cs ov : Nat) : List PDoc → List PDoc
  | [] => []
  | doc :: rest =>
    if doc.text = [] then chunkDocuments cs ov rest
    else
      ((chunkText cs ov doc.text).enum.map (fun ic =>
        { id := doc.id
          text := ic.2
          metadata := setKey doc.metadata (lit "chunk")
            (MVal.chunkInfo ic.1 (chunkText cs ov doc.text).length)
          embedding := doc.embedding })) ++ chunkDocuments cs ov rest

/-- The single-quote and brace characters of the Python `str()` rendering,
written by code point. -/
def sqc : Char := Char.ofNat 39

def lbr : Char := Char.ofNat 123

def rbr : Char := Char.ofNat 125

/-- Python `str()` of a metadata value as it appears inside
`str(sorted(metadata.items()))` (string escaping inside values is not
modelled; only determinism of the rendering matters to any claim). -/
def renderMVal : MVal → Str
  | .s v => sqc :: (v ++ [sqc])
  | .n k => Nat.toDigits 10 k
  | .chunkInfo i n =>
    [lbr] ++ (sqc :: (lit "index" ++ [sqc])) ++ lit ": " ++ Nat.toDigits 10 i ++
      lit ", " ++ (sqc :: (lit "total" ++ [sqc])) ++ lit ": " ++
      Nat.toDigits 10 n ++ [rbr]

/-- Python `str()` of one `(key, value)` item. -/
def renderPair (p : Str × MVal) : Str :=
  lit "(" ++ (sqc :: (p.1 ++ [sqc])) ++ lit ", " ++ renderMVal p.2 ++ lit ")"

/-- Python `str(list_of_items)`. -/
def renderItems (items : List (Str × MVal)) : Str :=
  lit "[" ++ List.intercalate (lit ", ") (items.map renderPair) ++ lit "]"

/-- Lexicographic order on strings by code point, the order `sorted` uses on
the tuple keys (dict keys are unique, so the tuple comparison never reaches
the values). -/
def strLe : Str → Str → Bool
  | [], _ => true
  | _ :: _, [] => false
  | a :: as, b :: bs => if a < b then true else if a = b then strLe as bs else false

/-- The `DocumentProcessor._generate_document_id(text, metadata)`: the `doc_`
prefix on the md5 hex digest of the text concatenated with
`str(sorted(metadata.items()))`. -/
def genDocId (md5Hex : Str → Str) (text : Str) (metadata : List (Str × MVal)) : Str :=
  lit "doc_" ++
    md5Hex (text ++ renderItems
      (List.insertionSort (fun p q => strLe p.1 q.1 = true) metadata))

/-- The environment a `DocumentProcessor` call runs against: the abstracted
md5 digest, the embedding provider, the vector store upsert outcome, the
uuid4 source for documents lacking an id (by position in the batch), and the
cache file system flags. -/
structure ProcCtx where
  md5Hex : Str → Str
  provider : Provider
  storeOk : Bool
  uuid : Nat → Str
  io : CacheFs

/-- The settings a `DocumentProcessor` is constructed with. -/
structure ProcCfg where
  cs : Nat
  ov : Nat
  cacheEnabled : Bool
  ttl : Int

/-- Counts of backend calls a processor invocation issues: embedding batch
calls and vector store upsert calls. -/
structure Effects where
  embedCalls : Nat
  storeCalls : Nat
deriving DecidableEq

/-- The `store_embeddings` of both connectors: on success the id of every given
document (a fresh uuid4 when absent), on a raised backend error the empty
list. -/
def storeEmbeddingsIds (ctx : ProcCtx) (docs : List PDoc) : List Str :=
  if ctx.storeOk then docs.enum.map (fun p => p.2.id.getD (ctx.uuid p.1))
  else []

/-- The `Step 5` cache loop of `process_documents`: each original document
carrying an `id` is written to the cache under that id. -/
def cacheWriteAll (ctx : ProcCtx) (now : Int) :
    CacheSt PDoc → List PDoc → CacheSt PDoc
  | st, [] => st
  | st, d :: rest =>
    match d.id with
    | some i =>
      cacheWriteAll ctx now (cacheStore ctx.md5Hex ctx.io now st i d).1 rest
    | none => cacheWriteAll ctx now st rest

/-- The `Step 3` loop `for i, embedding in enumerate(embeddings)` of
`process_documents`: attach the embeddings positionally; chunks beyond the
embedding list keep their old value (the service always returns one embedding
per chunk, so the `drop` remainder is empty in every reachable run). -/
def attachEmbeddings (chunked : List PDoc) (embeddings : List (List Int)) :
    List PDoc :=
  (chunked.zip embeddings).map (fun p => { p.1 with embedding := some p.2 }) ++
    chunked.drop embeddings.length

/-- The `DocumentProcessor.process_documents(documents)`: chunk, embed the chunk
texts in one batch call, attach the embeddings positionally, upsert in one
store call, then cache the pre-chunk originals that carry an id. -/
def processDocuments (ctx : ProcCtx) (cfg : ProcCfg) (st : CacheSt PDoc)
    (now : Int) (docs : List PDoc) : List Str × CacheSt PDoc × Effects :=
  if docs = [] then ([], st, ⟨0, 0⟩)
  else
    (storeEmbeddingsIds ctx
        (attachEmbeddings (chunkDocuments cfg.cs cfg.ov docs)
          (serviceGenerateEmbeddings (some ctx.provider)
            ((chunkDocuments cfg.cs cfg.ov docs).map (fun d => d.text)))),
      (if cfg.cacheEnabled then cacheWriteAll ctx now st docs else st),
      ⟨1, 1⟩)

/-- The `DocumentProcessor.process_document(text, metadata)`: empty text is a
no-op; otherwise compute the deterministic id, return `[doc_id]` on a cache
hit (the cached dictionary is nonempty, so Python truthiness is `isSome`),
else build the document dictionary and run `process_documents` on it. -/
def processDocument (ctx : ProcCtx) (cfg : ProcCfg) (st : CacheSt PDoc)
    (now : Int) (text : Str) (metadata : List (Str × MVal)) :
    List Str × CacheSt PDoc × Effects :=
  if text = [] then ([], st, ⟨0, 0⟩)
  else if cfg.cacheEnabled = true ∧
      (cacheGet ctx.md5Hex ctx.io cfg.ttl now st
        (genDocId ctx.md5Hex text metadata)).isSome then
    ([genDocId ctx.md5Hex text metadata], st, ⟨0, 0⟩)
  else
    processDocuments ctx cfg st now
      [PDoc.mk (some (genDocId ctx.md5Hex text metadata)) text metadata none]

/-- The `DocumentProcessor.delete_document(doc_id)`: the returned flag is the
vector store deletion outcome (an external backend call, `storeDeleteOk`);
the cache invalidation runs when the cache is enabled but its result is only
logged. -/
def deleteDocument (ctx : ProcCtx) (cfg : ProcCfg) (storeDeleteOk : Bool)
    (st : CacheSt PDoc) (docId : Str) : Bool × CacheSt PDoc :=
  let st2 := if cfg.cacheEnabled then (cacheInvalidate ctx.md5Hex ctx.io st docId).1
    else st
  (storeDeleteOk, st2)

/-! ## Vector store connectors
(src/rag/vector_db/pinecone_db.py, src/rag/vector_db/chroma_db.py)

The backend servers are modelled by the list of index/collection names they
hold; Chroma `connect` can create a collection, so it returns the updated
server alongside the connector state. -/

/-- The `PineconeConnector` state: credentials and target index from settings,
plus the `pc` client handle, `index` handle and `is_connected` flag. -/
structure PineConn where
  apiKey : Str
  indexName : Str
  pcInit : Bool
  index : Option Str
  isConnected : Bool
deriving DecidableEq

/-- The `PineconeConnector.connect()`: fail on a missing key; initialize the
client; list the server indexes (`listFail` models the inner exception); a
missing index is an error path returning `false` — the index is never
created; otherwise bind the index handle (the membership test and the
`next(...)` lookup collapse to one `find?`). -/
def pineconeConnect (server : List Str) (listFail : Bool) (c : PineConn) :
    PineConn × Bool :=
  if c.apiKey = [] then
    (PineConn.mk c.apiKey c.indexName c.pcInit c.index false, false)
  else if listFail then
    (PineConn.mk c.apiKey c.indexName true c.index false, false)
  else
    match server.find? (fun n => n == c.indexName) with
    | none => (PineConn.mk c.apiKey c.indexName true c.index false, false)
    | some host =>
      (PineConn.mk c.apiKey c.indexName true (some host) true, true)

/-- The `PineconeConnector.disconnect()`: clear the handles, always `true`. -/
def pineconeDisconnect (c : PineConn) : PineConn × Bool :=
  (PineConn.mk c.apiKey c.indexName false none false, true)

/-- The `ChromaConnector` state. -/
structure ChromaConn where
  collectionName : Str
  clientInit : Bool
  collection : Option Str
  isConnected : Bool
deriving DecidableEq

/-- The `ChromaConnector.connect()`: initialize the persistent client, get the
collection, creating it when `get_collection` raises because it is absent;
returns the possibly-extended server contents. -/
def chromaConnect (server : List Str) (c : ChromaConn) :
    List Str × ChromaConn × Bool :=
  if server.contains c.collectionName then
    (server,
      ChromaConn.mk c.collectionName true (some c.collectionName) true, true)
  else
    (server ++ [c.collectionName],
      ChromaConn.mk c.collectionName true (some c.collectionName) true, true)

/-- The `ChromaConnector.disconnect()`: clear the handles, always `true`. -/
def chromaDisconnect (c : ChromaConn) : ChromaConn × Bool :=
  (ChromaConn.mk c.collectionName false none false, true)

/-! ## Theorems -/

/-! Bounds for the split point. -/

theorem findSplitGo_bound (t : Str) (e : Nat) :
    ∀ k i, k ≤ i → findSplitGo t e i k = e ∨
      (i - k < findSplitGo t e i k ∧ findSplitGo t e i k ≤ i) := by
  intro k
  induction k with
  | zero => intro i _; left; rfl
  | succ k ih =>
    intro i hki
    cases hb : splitCond t i with
    | true =>
      right
      simp [findSplitGo, hb]
      omega
    | false =>
      have h2 := ih (i - 1) (by omega)
      simp only [findSplitGo, hb]
      simp only [Bool.false_eq_true, if_false]
      rcases h2 with h2 | h2
      · left; exact h2
      · right; omega

theorem findSplitPoint_bound (t : Str) (e : Nat) (he : 100 ≤ e) :
    e - 100 < findSplitPoint t e ∧ findSplitPoint t e ≤ e := by
  have hmin : min 100 e = 100 := by omega
  have h := findSplitGo_bound t e 100 e (by omega)
  unfold findSplitPoint
  rw [hmin]
  rcases h with h | h
  · rw [h]; omega
  · omega

/-- In the looping case the split point lies strictly between
`start + chunk_overlap` and the text end. -/
theorem splitPoint_window (cs ov : Nat) (t : Str) (h : ov + 100 ≤ cs)
    (start : Nat) (hend : ¬ t.length ≤ start + cs) :
    start + ov < findSplitPoint t (start + cs) ∧
      findSplitPoint t (start + cs) < t.length ∧
      findSplitPoint t (start + cs) ≤ start + cs := by
  have hp := findSplitPoint_bound t (start + cs) (by omega)
  omega

/-- Dropping the overlap from every chunk the loop produces yields exactly the
text from `start + ov` on. -/
theorem chunkTextGo_recombTail (cs ov : Nat) (t : Str) (h : ov + 100 ≤ cs) :
    ∀ fuel start, start < t.length → t.length - start ≤ fuel →
      ((chunkTextGo cs ov t fuel start).map (List.drop ov)).flatten =
        t.drop (start + ov) := by
  intro fuel
  induction fuel with
  | zero => intro start h1 h2; omega
  | succ fuel ih =>
    intro start h1 h2
    simp only [chunkTextGo, if_pos h1]
    by_cases hend : t.length ≤ start + cs
    · rw [if_pos hend]
      simp [List.drop_drop]
    · rw [if_neg hend]
      have hp := splitPoint_window cs ov t h start hend
      set p := findSplitPoint t (start + cs) with hpdef
      simp only [List.map_cons, List.flatten_cons]
      rw [ih (p - ov) (by omega) (by omega)]
      have hov : p - ov + ov = p := by omega
      rw [hov, List.drop_take, List.drop_drop]
      have happ := List.take_append_drop (p - start - ov) (t.drop (start + ov))
      rw [List.drop_drop] at happ
      have harith : start + ov + (p - start - ov) = p := by omega
      rw [harith] at happ
      exact happ

/-- The loop output, recombined with overlaps removed, is the text from
`start` on. -/
theorem chunkTextGo_recomb (cs ov : Nat) (t : Str) (h : ov + 100 ≤ cs) :
    ∀ fuel start, start < t.length → t.length - start ≤ fuel →
      recomb ov (chunkTextGo cs ov t fuel start) = t.drop start := by
  intro fuel start h1 h2
  cases fuel with
  | zero => omega
  | succ fuel =>
    simp only [chunkTextGo, if_pos h1]
    by_cases hend : t.length ≤ start + cs
    · rw [if_pos hend]
      simp [recomb]
    · rw [if_neg hend]
      have hp := splitPoint_window cs ov t h start hend
      set p := findSplitPoint t (start + cs) with hpdef
      simp only [recomb]
      rw [chunkTextGo_recombTail cs ov t h fuel (p - ov) (by omega) (by omega)]
      have hov : p - ov + ov = p := by omega
      rw [hov]
      have happ := List.take_append_drop (p - start) (t.drop start)
      rw [List.drop_drop] at happ
      have harith : start + (p - start) = p := by omega
      rw [harith] at happ
      exact happ

/-- Every chunk the loop produces fits in `chunk_size`. -/
theorem chunkTextGo_length (cs ov : Nat) (t : Str) (h : ov + 100 ≤ cs) :
    ∀ fuel start, t.length - start ≤ fuel →
      ∀ c ∈ chunkTextGo cs ov t fuel start, c.length ≤ cs := by
  intro fuel
  induction fuel with
  | zero => intro start h2; simp [chunkTextGo]
  | succ fuel ih =>
    intro start h2 c hc
    by_cases h1 : start < t.length
    · simp only [chunkTextGo, if_pos h1] at hc
      by_cases hend : t.length ≤ start + cs
      · rw [if_pos hend] at hc
        simp only [List.mem_singleton] at hc
        subst hc
        simp only [List.length_drop]
        omega
      · rw [if_neg hend] at hc
        have hp := splitPoint_window cs ov t h start hend
        set p := findSplitPoint t (start + cs) with hpdef
        simp only [List.mem_cons] at hc
        rcases hc with hc | hc
        · subst hc
          simp only [List.length_take, List.length_drop]
          omega
        · exact ih (p - ov) (by omega) c hc
    · simp only [chunkTextGo, if_neg h1] at hc
      simp at hc

/-- The loop output is nonempty and its first chunk starts with the text at
`start`; in particular its first `ov` characters are those of
`t.drop start`. -/
theorem chunkTextGo_head (cs ov : Nat) (t : Str) (h : ov + 100 ≤ cs) :
    ∀ fuel start, start < t.length → t.length - start ≤ fuel →
      ∃ c rest, chunkTextGo cs ov t fuel start = c :: rest ∧
        c.take ov = (t.drop start).take ov := by
  intro fuel start h1 h2
  cases fuel with
  | zero => omega
  | succ fuel =>
    simp only [chunkTextGo, if_pos h1]
    by_cases hend : t.length ≤ start + cs
    · rw [if_pos hend]
      exact ⟨t.drop start, [], rfl, rfl⟩
    · rw [if_neg hend]
      have hp := splitPoint_window cs ov t h start hend
      set p := findSplitPoint t (start + cs) with hpdef
      refine ⟨(t.drop start).take (p - start), _, rfl, ?_⟩
      rw [List.take_take]
      have : min ov (p - start) = ov := by omega
      rw [this]

/-- Consecutive chunks from the loop overlap by exactly `ov` characters. -/
theorem chunkTextGo_chain (cs ov : Nat) (t : Str) (h : ov + 100 ≤ cs) :
    ∀ fuel start, start < t.length → t.length - start ≤ fuel →
      List.Chain' (overlapRel ov) (chunkTextGo cs ov t fuel start) := by
  intro fuel
  induction fuel with
  | zero => intro start h1 h2; omega
  | succ fuel ih =>
    intro start h1 h2
    simp only [chunkTextGo, if_pos h1]
    by_cases hend : t.length ≤ start + cs
    · rw [if_pos hend]
      exact List.chain'_singleton _
    · rw [if_neg hend]
      have hp := splitPoint_window cs ov t h start hend
      set p := findSplitPoint t (start + cs) with hpdef
      rw [List.chain'_cons']
      constructor
      · intro y hy
        obtain ⟨c2, rest2, heq, hc2⟩ :=
          chunkTextGo_head cs ov t h fuel (p - ov) (by omega) (by omega)
        rw [heq] at hy
        simp only [List.head?_cons, Option.mem_def, Option.some_inj] at hy
        subst hy
        unfold overlapRel
        rw [hc2]
        have hlen : ((t.drop start).take (p - start)).length = p - start := by
          simp only [List.length_take, List.length_drop]
          omega
        rw [hlen, List.drop_take, List.drop_drop]
        have h1a : start + (p - start - ov) = p - ov := by omega
        have h2a : p - start - (p - start - ov) = ov := by omega
        rw [h1a, h2a]
      · exact ih (p - ov) (by omega) (by omega)

/-- C5: under `0 ≤ chunk_overlap` and `chunk_overlap + 100 ≤ chunk_size` (the
reading of the precondition under which the split point always advances past
the overlap, since the look-back window is 100 characters), the chunks of
`TextChunker.chunk_text` cover the whole text in order: every chunk has length
at most `chunk_size`, consecutive chunks overlap by exactly (hence at most)
`chunk_overlap` characters, and concatenating the chunks with the overlapping
prefixes removed reconstructs the text. -/
theorem chunk_text_cover_spec (cs ov : Nat) (t : Str) (h : ov + 100 ≤ cs) :
    (∀ c ∈ chunkText cs ov t, c.length ≤ cs) ∧
    List.Chain' (overlapRel ov) (chunkText cs ov t) ∧
    recomb ov (chunkText cs ov t) = t := by
  unfold chunkText
  by_cases h0 : t = []
  · rw [if_pos h0, h0]
    exact ⟨by simp, List.chain'_nil, rfl⟩
  · rw [if_neg h0]
    by_cases h1 : t.length ≤ cs
    · rw [if_pos h1]
      refine ⟨?_, List.chain'_singleton _, by simp [recomb]⟩
      intro c hc
      simp only [List.mem_singleton] at hc
      subst hc
      exact h1
    · rw [if_neg h1]
      have hlen : 0 < t.length := by
        cases t with
        | nil => exact absurd rfl h0
        | cons a l => simp
      exact ⟨chunkTextGo_length cs ov t h t.length 0 (by omega),
        chunkTextGo_chain cs ov t h t.length 0 (by omega) (by omega),
        by rw [chunkTextGo_recomb cs ov t h t.length 0 (by omega) (by omega)]; simp⟩

/-- Witness for C5 at a concrete configuration and text. -/
theorem chunk_text_cover_spec_witness :
    0 + 100 ≤ 100 ∧
    ((∀ c ∈ chunkText 100 0 (lit "one. two"), c.length ≤ 100) ∧
      List.Chain' (overlapRel 0) (chunkText 100 0 (lit "one. two")) ∧
      recomb 0 (chunkText 100 0 (lit "one. two")) = lit "one. two") :=
  ⟨by decide, chunk_text_cover_spec 100 0 (lit "one. two") (by decide)⟩

/-- A pattern longer than the string never matches, so `replaceAll` is the
identity. -/
theorem replaceAll_short : ∀ (s pat repl : Str), s.length < pat.length →
    replaceAll s pat repl = s := by
  intro s
  induction s with
  | nil => intro pat repl _; rw [replaceAll]
  | cons c rest ih =>
    intro pat repl h
    rw [replaceAll]
    have hnp : ¬ (pat ≠ [] ∧ pat.isPrefixOf (c :: rest) = true) := by
      rintro ⟨h1, h2⟩
      have hle := List.IsPrefix.length_le (List.isPrefixOf_iff_prefix.mp h2)
      omega
    rw [dif_neg hnp]
    have hlt : rest.length < pat.length := by
      simp only [List.length_cons] at h
      omega
    rw [ih pat repl hlt]

/-- When the first occurrence of the pattern is exactly the marked one and the
tail is too short to hold another, `replaceAll` rewrites precisely that
occurrence. -/
theorem replaceAll_exact : ∀ (head : Str) (pat tail repl : Str), pat ≠ [] →
    tail.length < pat.length →
    (∀ j < head.length, ¬ pat.isPrefixOf ((head ++ pat ++ tail).drop j) = true) →
    replaceAll (head ++ pat ++ tail) pat repl = head ++ repl ++ tail := by
  intro head
  induction head with
  | nil =>
    intro pat tail repl hpat htail _
    simp only [List.nil_append]
    cases hp : pat with
    | nil => exact absurd hp hpat
    | cons p ps =>
      rw [← hp]
      have hcons : pat ++ tail = p :: (ps ++ tail) := by rw [hp]; rfl
      rw [hcons, replaceAll, ← hcons]
      have hcond : pat ≠ [] ∧ pat.isPrefixOf (pat ++ tail) = true := by
        refine ⟨hpat, ?_⟩
        exact List.isPrefixOf_iff_prefix.mpr (List.prefix_append pat tail)
      rw [dif_pos (by rw [hcons] at hcond ⊢; exact hcond)]
      rw [List.drop_left, replaceAll_short tail pat repl htail]
  | cons c head2 ih =>
    intro pat tail repl hpat htail hfree
    have hs : (c :: head2) ++ pat ++ tail = c :: (head2 ++ pat ++ tail) := by simp
    rw [hs, replaceAll]
    have hnp : ¬ (pat ≠ [] ∧ pat.isPrefixOf (c :: (head2 ++ pat ++ tail)) = true) := by
      rintro ⟨_, h2⟩
      have := hfree 0 (by simp)
      rw [hs] at this
      simp only [List.drop_zero] at this
      exact this h2
    rw [dif_neg hnp]
    have hfree2 : ∀ j < head2.length,
        ¬ pat.isPrefixOf ((head2 ++ pat ++ tail).drop j) = true := by
      intro j hj
      have := hfree (j + 1) (by simp; omega)
      rw [hs] at this
      simpa using this
    rw [ih pat tail repl hpat htail hfree2]
    simp

/-- Helper lengths of the fixed literals in the enhancer. -/
theorem lit_content_length : (lit "Content: ").length = 9 := by decide

theorem lit_nn_length : (lit "\n\n").length = 2 := by decide

theorem lit_dots_length : (lit "...").length = 3 := by decide

/-- Length of a `doc_info` block in terms of its parts. -/
theorem docInfoFor_length (i : Nat) (d : RetrievedDoc) :
    (docInfoFor i d).length = (docHead i d).length + 9 + d.text.length + 2 := by
  simp only [docInfoFor, contentPat, List.length_append, lit_content_length,
    lit_nn_length]
  omega

/-- The loop keeps the context within `maxLen + 3` characters, `3` for the
truncation marker. -/
theorem enhanceLoop_bound (maxLen : Nat) :
    ∀ (docs : List RetrievedDoc) (i : Nat) (ctx : Str), ctx.length ≤ maxLen →
      occFreeB i docs = true → (enhanceLoop maxLen docs i ctx).length ≤ maxLen + 3 := by
  intro docs
  induction docs with
  | nil =>
    intro i ctx h1 _
    simp only [enhanceLoop]
    omega
  | cons d rest ih =>
    intro i ctx h1 h2
    simp only [occFreeB, Bool.and_eq_true] at h2
    simp only [enhanceLoop]
    by_cases hover : maxLen < (ctx ++ docInfoFor i d).length
    · rw [if_pos hover]
      set available : Int :=
        (maxLen : Int) - ctx.length - (docInfoFor i d).length + d.text.length
        with havail
      by_cases htr : 100 < available
      · rw [if_pos htr]
        have hpat : contentPat d ≠ [] := by
          intro hc
          have : (contentPat d).length = 0 := by rw [hc]; rfl
          simp only [contentPat, List.length_append, lit_content_length] at this
          omega
        have htail : (lit "\n\n").length < (contentPat d).length := by
          simp only [contentPat, List.length_append, lit_content_length,
            lit_nn_length]
          omega
        have hfree : ∀ j < (docHead i d).length,
            ¬ (contentPat d).isPrefixOf
              ((docHead i d ++ contentPat d ++ lit "\n\n").drop j) = true := by
          intro j hj
          have hall := h2.1
          unfold earlyFree at hall
          rw [List.all_eq_true] at hall
          have := hall j (List.mem_range.mpr hj)
          simp only [Bool.not_eq_true', docInfoFor] at this
          intro hc
          rw [this] at hc
          exact Bool.false_ne_true hc
        have hrw := replaceAll_exact (docHead i d) (contentPat d) (lit "\n\n")
          (lit "Content: " ++ (d.text.take available.toNat ++ lit "..."))
          hpat htail hfree
        rw [show docInfoFor i d = docHead i d ++ contentPat d ++ lit "\n\n" from rfl]
        rw [hrw]
        have hinfoL := docInfoFor_length i d
        rw [List.length_append] at hover
        simp only [List.length_append, List.length_take, lit_content_length,
          lit_dots_length, lit_nn_length]
        omega
      · rw [if_neg htr]
        omega
    · rw [if_neg hover]
      exact ih (i + 1) (ctx ++ docInfoFor i d) (by omega) h2.2

/-- C1 (amended): the output of `ContextEnhancer.enhance` stays within
`max_context_length + 3` characters (the 3-character `"..."` truncation
marker may exceed the budget) provided the fixed query header itself fits in
the budget and no result carries an early copy of its own content pattern
inside its formatted block; when appending the next full block would
overflow, the content is truncated to the remaining budget only if more than
100 characters remain, the marker is appended, and no further results are
considered. -/
theorem enhance_context_budget (maxLen : Nat) (q : Str) (docs : List RetrievedDoc)
    (hq : (lit "Query: " ++ q ++ lit "\n\nNo relevant documents found.").length ≤ maxLen)
    (hh : (lit "Query: " ++ q ++ lit "\n\nRelevant information:\n\n").length ≤ maxLen)
    (hfree : occFreeB 0 docs = true) :
    (enhance maxLen q docs).length ≤ maxLen + 3 := by
  unfold enhance
  by_cases h0 : docs = []
  · rw [if_pos h0]
    omega
  · rw [if_neg h0]
    exact enhanceLoop_bound maxLen docs 0 _ hh hfree

/-- Counterexample to C1 as stated: with `max_context_length = 10` and an
empty result list, the fixed no-results message already exceeds the budget,
so `len(enhance(q, rs)) ≤ max_context_length` fails. -/
theorem enhance_context_budget_cex :
    ¬ (enhance 10 (lit "what is retrieval augmented generation") []).length ≤ 10 := by
  decide

/-- Witness for the amended C1 at a concrete query and result. -/
theorem enhance_context_budget_witness :
    ((lit "Query: " ++ lit "hi" ++ lit "\n\nNo relevant documents found.").length ≤ 200) ∧
    ((lit "Query: " ++ lit "hi" ++ lit "\n\nRelevant information:\n\n").length ≤ 200) ∧
    occFreeB 0 [⟨lit "d1", 1, lit "0.95", lit "short text", lit "s", []⟩] = true ∧
    (enhance 200 (lit "hi")
      [⟨lit "d1", 1, lit "0.95", lit "short text", lit "s", []⟩]).length ≤ 200 + 3 :=
  ⟨by decide, by decide, by decide,
    enhance_context_budget 200 (lit "hi")
      [⟨lit "d1", 1, lit "0.95", lit "short text", lit "s", []⟩]
      (by decide) (by decide) (by decide)⟩

/-- C9 (amended): with expansion disabled, `expand_query` returns the
one-element list holding its argument unchanged; it does not process it.  The
engine always passes an already-processed query, so at the engine call site
the single element is the processed form. -/
theorem expand_query_disabled (q : Str) : expandQuery false q = [q] := by
  unfold expandQuery
  rw [if_pos (Or.inr rfl)]

/-- Counterexample to C9 as stated: with expansion disabled the returned
element is the raw input, not its processed (lowercased, special-character
stripped) form. -/
theorem expand_query_disabled_cex :
    ¬ expandQuery false (lit "Hello!") = [processQuery (lit "Hello!")] := by
  decide

/-- Every survivor of the dedup loop is the first element of the input with
its id, and its id is not in `seen`. -/
theorem dedupRGo_find (seen : List Str) (rs : List RetrievedDoc) :
    ∀ r ∈ dedupRGo seen rs, seen.contains r.id = false ∧
      rs.find? (fun x => x.id == r.id) = some r := by
  induction rs generalizing seen with
  | nil => intro r hr; simp [dedupRGo] at hr
  | cons r0 rest ih =>
    intro r hr
    by_cases h0 : seen.contains r0.id = true
    · rw [dedupRGo, if_pos h0] at hr
      obtain ⟨hseen, hfind⟩ := ih seen r hr
      have hne : (r0.id == r.id) = false := by
        cases hbe : r0.id == r.id with
        | false => rfl
        | true =>
          have : r0.id = r.id := by
            exact eq_of_beq hbe
          rw [this] at h0
          rw [h0] at hseen
          exact absurd hseen (by simp)
      refine ⟨hseen, ?_⟩
      rw [List.find?_cons, hne]
      exact hfind
    · rw [dedupRGo, if_neg h0] at hr
      rcases List.mem_cons.mp hr with hr | hr
      · subst hr
        refine ⟨by simpa using h0, ?_⟩
        rw [List.find?_cons]
        have : (r.id == r.id) = true := by simp
        rw [this]
      · obtain ⟨hseen, hfind⟩ := ih (r0.id :: seen) r hr
        simp only [List.contains_cons, Bool.or_eq_false_iff] at hseen
        refine ⟨hseen.2, ?_⟩
        have hne : (r0.id == r.id) = false := by
          cases hbe : r0.id == r.id with
          | false => rfl
          | true =>
            have heq : r0.id = r.id := eq_of_beq hbe
            have := hseen.1
            rw [heq] at this
            simp at this
        rw [List.find?_cons, hne]
        exact hfind

/-- The ids surviving the dedup loop are pairwise distinct. -/
theorem dedupRGo_nodup (seen : List Str) (rs : List RetrievedDoc) :
    ((dedupRGo seen rs).map (fun r => r.id)).Nodup := by
  induction rs generalizing seen with
  | nil => simp [dedupRGo]
  | cons r0 rest ih =>
    by_cases h0 : seen.contains r0.id = true
    · rw [dedupRGo, if_pos h0]
      exact ih seen
    · rw [dedupRGo, if_neg h0]
      simp only [List.map_cons, List.nodup_cons]
      refine ⟨?_, ih (r0.id :: seen)⟩
      intro hmem
      obtain ⟨r, hr, hid⟩ := List.mem_map.mp hmem
      obtain ⟨hseen, _⟩ := dedupRGo_find (r0.id :: seen) rest r hr
      simp only [List.contains_cons, Bool.or_eq_false_iff] at hseen
      have := hseen.1
      rw [hid] at this
      simp at this

/-- C4: the `documents` list returned by `RAGQueryEngine.query` holds each
result id at most once, each kept element being the first occurrence of its
id across the concatenated per-variant result lists; it is sorted by
non-increasing score and has length at most `top_k`. -/
theorem engine_query_documents_spec (retrieve : Str → List RetrievedDoc)
    (queryText : Str) (topK : Nat) :
    ((engineQuery retrieve queryText topK).documents.map (fun r => r.id)).Nodup ∧
    List.Pairwise (fun a b : RetrievedDoc => b.score ≤ a.score)
      (engineQuery retrieve queryText topK).documents ∧
    (engineQuery retrieve queryText topK).documents.length ≤ topK ∧
    ∀ r ∈ (engineQuery retrieve queryText topK).documents,
      (((expandQuery true (processQuery queryText)).map retrieve).flatten).find?
        (fun x => x.id == r.id) = some r := by
  have hdoc : (engineQuery retrieve queryText topK).documents =
      (List.mergeSort
        (dedupRGo [] (((expandQuery true (processQuery queryText)).map
          retrieve).flatten))
        (fun a b => decide (b.score ≤ a.score))).take topK := rfl
  set allResults :=
    ((expandQuery true (processQuery queryText)).map retrieve).flatten
    with hall
  set unique := dedupRGo [] allResults with huniq
  set sortedResults :=
    List.mergeSort unique (fun a b => decide (b.score ≤ a.score)) with hsort
  have hperm : sortedResults.Perm unique := List.mergeSort_perm unique _
  refine ⟨?_, ?_, ?_, ?_⟩
  · rw [hdoc]
    have h1 : (unique.map (fun r => r.id)).Nodup := dedupRGo_nodup [] allResults
    have h2 : (sortedResults.map (fun r => r.id)).Nodup :=
      ((hperm.map (fun r => r.id)).nodup_iff).mpr h1
    exact h2.sublist (List.Sublist.map _ (List.take_sublist _ _))
  · rw [hdoc]
    have hs : List.Pairwise
        (fun a b : RetrievedDoc => decide (b.score ≤ a.score) = true)
        sortedResults := by
      rw [hsort]
      exact List.sorted_mergeSort
        (by
          intro a b c hab hbc
          simp only [decide_eq_true_eq] at *
          omega)
        (by
          intro a b
          simp only [Bool.or_eq_true, decide_eq_true_eq]
          omega)
        unique
    have hs2 : List.Pairwise (fun a b : RetrievedDoc => b.score ≤ a.score)
        sortedResults :=
      hs.imp (fun h => of_decide_eq_true h)
    exact hs2.sublist (List.take_sublist _ _)
  · rw [hdoc, List.length_take]
    omega
  · intro r hr
    rw [hdoc] at hr
    have h1 : r ∈ sortedResults := List.mem_of_mem_take hr
    have h2 : r ∈ unique := (hperm.mem_iff).mp h1
    exact (dedupRGo_find [] allResults r h2).2

/-- C6: an entry stored at time `T` with time-to-live `ttl` is returned by
`get` at time `T + ttl - 1` and treated as absent at `T + ttl + 1`; expiry is
decided at read time from the stored stamp, so no sweep is involved. -/
theorem cache_ttl_spec {α : Type} (md5Hex : Str → Str) (io : CacheFs)
    (ttl T : Int) (st : CacheSt α) (docId : Str) (doc : α)
    (hw : io.writeFail = false) (hr : io.readFail = false) :
    cacheGet md5Hex io ttl (T + ttl - 1)
      (cacheStore md5Hex io T st docId doc).1 docId = some doc ∧
    cacheGet md5Hex io ttl (T + ttl + 1)
      (cacheStore md5Hex io T st docId doc).1 docId = none := by
  have hst : (cacheStore md5Hex io T st docId doc).1 =
      (md5Hex docId, doc, T) :: st := by
    unfold cacheStore
    rw [if_neg (by rw [hw]; exact Bool.false_ne_true)]
  rw [hst]
  have hlook : cacheLookup ((md5Hex docId, doc, T) :: st) (md5Hex docId) =
      some (doc, T) := by
    unfold cacheLookup
    rw [List.find?_cons]
    have : ((md5Hex docId, doc, T).1 == md5Hex docId) = true := by simp
    rw [this]
  constructor
  · unfold cacheGet
    rw [hlook]
    simp only [hr, Bool.false_eq_true, if_false]
    rw [if_neg (by omega)]
  · unfold cacheGet
    rw [hlook]
    simp only [hr, Bool.false_eq_true, if_false]
    rw [if_pos (by omega)]

/-- Witness for C6 at a concrete store and read. -/
theorem cache_ttl_spec_witness :
    (CacheFs.mk false false false).writeFail = false ∧
    (CacheFs.mk false false false).readFail = false ∧
    (cacheGet (fun s => s) (CacheFs.mk false false false) 60 (100 + 60 - 1)
      (cacheStore (fun s => s) (CacheFs.mk false false false) 100 []
        (lit "doc_1") (lit "payload")).1 (lit "doc_1") = some (lit "payload") ∧
    cacheGet (fun s => s) (CacheFs.mk false false false) 60 (100 + 60 + 1)
      (cacheStore (fun s => s) (CacheFs.mk false false false) 100 []
        (lit "doc_1") (lit "payload")).1 (lit "doc_1") = none) :=
  ⟨rfl, rfl,
    cache_ttl_spec (fun s => s) (CacheFs.mk false false false) 60 100 []
      (lit "doc_1") (lit "payload") rfl rfl⟩

/-- C7: with a current model set (the delegation the claim describes), the
batch embedding operation is length and order preserving, and on a backend
failure it returns one zero vector of length `dimension` per input instead of
raising. -/
theorem generate_embeddings_batch_spec (p : Provider) (texts : List Str) :
    (serviceGenerateEmbeddings (some p) texts).length = texts.length ∧
    (p.ok = true →
      serviceGenerateEmbeddings (some p) texts = texts.map p.embedOf) ∧
    (p.ok = false →
      serviceGenerateEmbeddings (some p) texts =
        List.replicate texts.length (List.replicate p.dim 0)) := by
  cases hok : p.ok with
  | true =>
    refine ⟨?_, fun _ => ?_, fun hc => absurd hc (by simp [hok])⟩ <;>
      simp [serviceGenerateEmbeddings, generateBatch, hok]
  | false =>
    refine ⟨?_, fun hc => absurd hc (by simp [hok]), fun _ => ?_⟩ <;>
      simp [serviceGenerateEmbeddings, generateBatch, hok]

/-- Witness for C7 on a failing provider with two inputs. -/
theorem generate_embeddings_batch_spec_witness :
    (serviceGenerateEmbeddings (some (Provider.mk false (fun _ => []) 3))
      [lit "a", lit "b"]).length = 2 ∧
    ((Provider.mk false (fun _ => []) 3).ok = false →
      serviceGenerateEmbeddings (some (Provider.mk false (fun _ => []) 3))
        [lit "a", lit "b"] = List.replicate 2 (List.replicate 3 0)) :=
  ⟨((generate_embeddings_batch_spec (Provider.mk false (fun _ => []) 3)
      [lit "a", lit "b"]).1),
    fun h => by
      have := (generate_embeddings_batch_spec (Provider.mk false (fun _ => []) 3)
        [lit "a", lit "b"]).2.2 h
      simpa using this⟩

/-- The service returns one embedding per input whenever a model is set. -/
theorem serviceGenerateEmbeddings_length (p : Provider) (texts : List Str) :
    (serviceGenerateEmbeddings (some p) texts).length = texts.length := by
  simp only [serviceGenerateEmbeddings, generateBatch]
  by_cases hok : p.ok = true
  · simp [hok]
  · simp [hok]

/-- Every chunk of `chunk_documents` carries the `id` and `embedding` fields
of one of the input documents, unchanged. -/
theorem chunkDocuments_mem (cs ov : Nat) :
    ∀ (docs : List PDoc), ∀ c ∈ chunkDocuments cs ov docs,
      ∃ d ∈ docs, c.id = d.id ∧ c.embedding = d.embedding := by
  intro docs
  induction docs with
  | nil => intro c hc; simp [chunkDocuments] at hc
  | cons doc rest ih =>
    intro c hc
    by_cases h0 : doc.text = []
    · rw [chunkDocuments, if_pos h0] at hc
      obtain ⟨d, hd, hprop⟩ := ih c hc
      exact ⟨d, List.mem_cons_of_mem doc hd, hprop⟩
    · rw [chunkDocuments, if_neg h0] at hc
      rcases List.mem_append.mp hc with hc | hc
      · obtain ⟨ic, _, heq⟩ := List.mem_map.mp hc
        exact ⟨doc, List.mem_cons_self doc rest, by rw [← heq], by rw [← heq]⟩
      · obtain ⟨d, hd, hprop⟩ := ih c hc
        exact ⟨d, List.mem_cons_of_mem doc hd, hprop⟩

/-- For a single nonempty-text document the chunk list has one entry per text
chunk. -/
theorem chunkDocuments_single_length (cs ov : Nat) (d : PDoc)
    (htext : d.text ≠ []) :
    (chunkDocuments cs ov [d]).length = (chunkText cs ov d.text).length := by
  rw [chunkDocuments, if_neg htext, chunkDocuments]
  simp [List.enum_length]

/-- The `process_documents` on one document with an `id` returns that id once per
chunk (the store call succeeding) and performs the single cache write of the
original. -/
theorem processDocuments_single (ctx : ProcCtx) (cfg : ProcCfg)
    (st : CacheSt PDoc) (now : Int) (d : PDoc) (i : Str)
    (hid : d.id = some i) (htext : d.text ≠ []) (hstore : ctx.storeOk = true) :
    processDocuments ctx cfg st now [d] =
      (List.replicate (chunkText cfg.cs cfg.ov d.text).length i,
        (if cfg.cacheEnabled then (cacheStore ctx.md5Hex ctx.io now st i d).1
          else st),
        ⟨1, 1⟩) := by
  unfold processDocuments
  rw [if_neg (by simp : ¬ ([d] : List PDoc) = [])]
  have hmem : ∀ c ∈ chunkDocuments cfg.cs cfg.ov [d], c.id = some i := by
    intro c hc
    obtain ⟨d2, hd2, hprop, _⟩ := chunkDocuments_mem cfg.cs cfg.ov [d] c hc
    rw [List.mem_singleton] at hd2
    rw [hprop, hd2, hid]
  set chunked := chunkDocuments cfg.cs cfg.ov [d] with hchunked
  set embeddings := serviceGenerateEmbeddings (some ctx.provider)
    (chunked.map (fun d => d.text)) with hemb
  have hlen : embeddings.length = chunked.length := by
    rw [hemb, serviceGenerateEmbeddings_length]
    simp
  have hweLen : (attachEmbeddings chunked embeddings).length = chunked.length := by
    unfold attachEmbeddings
    simp only [List.length_append, List.length_map, List.length_zip,
      List.length_drop]
    omega
  have hweMem : ∀ c ∈ attachEmbeddings chunked embeddings, c.id = some i := by
    intro c hc
    unfold attachEmbeddings at hc
    rcases List.mem_append.mp hc with hc | hc
    · obtain ⟨p, hp, heq⟩ := List.mem_map.mp hc
      have := (List.of_mem_zip hp).1
      rw [← heq]
      exact hmem p.1 this
    · exact hmem c (List.mem_of_mem_drop hc)
  have hids : storeEmbeddingsIds ctx (attachEmbeddings chunked embeddings) =
      List.replicate (chunkText cfg.cs cfg.ov d.text).length i := by
    unfold storeEmbeddingsIds
    rw [if_pos hstore]
    rw [List.eq_replicate_iff]
    constructor
    · rw [List.length_map, List.enum_length, hweLen, hchunked]
      exact chunkDocuments_single_length cfg.cs cfg.ov d htext
    · intro b hb
      obtain ⟨p, hp, heq⟩ := List.mem_map.mp hb
      rw [List.enum_eq_zip_range] at hp
      have hmem2 : p.2 ∈ attachEmbeddings chunked embeddings :=
        (List.of_mem_zip hp).2
      rw [← heq, hweMem p.2 hmem2]
      rfl
  have hwr : cacheWriteAll ctx now st [d] =
      (cacheStore ctx.md5Hex ctx.io now st i d).1 := by
    unfold cacheWriteAll
    rw [hid]
    rfl
  rw [hids, hwr]

/-- C3: `chunk_documents` copies every field other than `text` and `metadata`
(the `id` and `embedding` keys) unchanged onto each chunk it produces;
consequently `process_documents` on a document carrying an `id` that splits
into `n` chunks upserts all `n` chunks under that one id and returns it `n`
times. -/
theorem chunk_documents_copies_fields (ctx : ProcCtx) (cfg : ProcCfg)
    (st : CacheSt PDoc) (now : Int) (docs : List PDoc) (d : PDoc) (i : Str)
    (hid : d.id = some i) (htext : d.text ≠ []) (hstore : ctx.storeOk = true) :
    (∀ c ∈ chunkDocuments cfg.cs cfg.ov docs,
      ∃ d2 ∈ docs, c.id = d2.id ∧ c.embedding = d2.embedding) ∧
    (processDocuments ctx cfg st now [d]).1 =
      List.replicate (chunkText cfg.cs cfg.ov d.text).length i := by
  refine ⟨chunkDocuments_mem cfg.cs cfg.ov docs, ?_⟩
  rw [processDocuments_single ctx cfg st now d i hid htext hstore]

/-- Witness for C3: a seven-character text with `chunk_size = 5` splits into
two chunks, both upserted under the caller id. -/
theorem chunk_documents_copies_fields_witness :
    (PDoc.mk (some (lit "docA")) (lit "aaaaaaa") [] none).id = some (lit "docA") ∧
    (PDoc.mk (some (lit "docA")) (lit "aaaaaaa") [] none).text ≠ [] ∧
    (ProcCtx.mk (fun s => s) (Provider.mk true (fun _ => []) 1) true
      (fun _ => lit "u") (CacheFs.mk false false false)).storeOk = true ∧
    ((∀ c ∈ chunkDocuments 5 0 ([] : List PDoc),
      ∃ d2 ∈ ([] : List PDoc), c.id = d2.id ∧ c.embedding = d2.embedding) ∧
    (processDocuments
        (ProcCtx.mk (fun s => s) (Provider.mk true (fun _ => []) 1) true
          (fun _ => lit "u") (CacheFs.mk false false false))
        (ProcCfg.mk 5 0 true 60) [] 0
        [PDoc.mk (some (lit "docA")) (lit "aaaaaaa") [] none]).1 =
      List.replicate (chunkText 5 0 (lit "aaaaaaa")).length (lit "docA")) :=
  ⟨rfl, by decide, rfl,
    chunk_documents_copies_fields
      (ProcCtx.mk (fun s => s) (Provider.mk true (fun _ => []) 1) true
        (fun _ => lit "u") (CacheFs.mk false false false))
      (ProcCfg.mk 5 0 true 60) [] 0 []
      (PDoc.mk (some (lit "docA")) (lit "aaaaaaa") [] none) (lit "docA")
      rfl (by decide) rfl⟩

/-- C2 (amended): with the cache enabled and healthy, the store succeeding,
and the first call a miss, `process_document` run twice on the same nonempty
text and metadata returns lists all of whose elements are the one
deterministic id `doc_<md5(text + str(sorted(metadata.items())))>`: the first
call returns one copy per chunk, and the second call, within `ttl` of the
first, is a cache hit returning exactly `[doc_id]`, leaving the cache
untouched and issuing no embedding or store calls. -/
theorem process_document_idempotent (ctx : ProcCtx) (cfg : ProcCfg)
    (st : CacheSt PDoc) (t1 t2 : Int) (text : Str)
    (metadata : List (Str × MVal))
    (htext : text ≠ [])
    (hcache : cfg.cacheEnabled = true)
    (hwr : ctx.io.writeFail = false)
    (hrd : ctx.io.readFail = false)
    (hstore : ctx.storeOk = true)
    (hmiss : cacheGet ctx.md5Hex ctx.io cfg.ttl t1 st
      (genDocId ctx.md5Hex text metadata) = none)
    (httl : t2 - t1 ≤ cfg.ttl) :
    (processDocument ctx cfg st t1 text metadata).1 =
      List.replicate (chunkText cfg.cs cfg.ov text).length
        (genDocId ctx.md5Hex text metadata) ∧
    processDocument ctx cfg (processDocument ctx cfg st t1 text metadata).2.1
        t2 text metadata =
      ([genDocId ctx.md5Hex text metadata],
        (processDocument ctx cfg st t1 text metadata).2.1,
        (⟨0, 0⟩ : Effects)) := by
  have hcond1 : ¬ (cfg.cacheEnabled = true ∧
      (cacheGet ctx.md5Hex ctx.io cfg.ttl t1 st
        (genDocId ctx.md5Hex text metadata)).isSome) := by
    rintro ⟨_, hs⟩
    rw [hmiss] at hs
    simp at hs
  have h1 : processDocument ctx cfg st t1 text metadata =
      (List.replicate (chunkText cfg.cs cfg.ov text).length
          (genDocId ctx.md5Hex text metadata),
        (ctx.md5Hex (genDocId ctx.md5Hex text metadata),
          PDoc.mk (some (genDocId ctx.md5Hex text metadata)) text metadata none,
          t1) :: st,
        ⟨1, 1⟩) := by
    unfold processDocument
    rw [if_neg htext, if_neg hcond1]
    rw [processDocuments_single ctx cfg st t1
      (PDoc.mk (some (genDocId ctx.md5Hex text metadata)) text metadata none)
      (genDocId ctx.md5Hex text metadata) rfl htext hstore]
    rw [if_pos hcache]
    unfold cacheStore
    rw [if_neg (by rw [hwr]; exact Bool.false_ne_true)]
  have hget2 : cacheGet ctx.md5Hex ctx.io cfg.ttl t2
      ((ctx.md5Hex (genDocId ctx.md5Hex text metadata),
        PDoc.mk (some (genDocId ctx.md5Hex text metadata)) text metadata none,
        t1) :: st) (genDocId ctx.md5Hex text metadata) =
      some (PDoc.mk (some (genDocId ctx.md5Hex text metadata)) text
        metadata none) := by
    unfold cacheGet cacheLookup
    rw [List.find?_cons]
    have hb : ((ctx.md5Hex (genDocId ctx.md5Hex text metadata),
        PDoc.mk (some (genDocId ctx.md5Hex text metadata)) text metadata none,
        (t1 : Int)).1 == ctx.md5Hex (genDocId ctx.md5Hex text metadata)) =
        true := by simp
    rw [hb]
    simp only [hrd, Bool.false_eq_true, if_false]
    rw [if_neg (by omega)]
  constructor
  · rw [h1]
  · rw [h1]
    unfold processDocument
    rw [if_neg htext]
    rw [if_pos ⟨hcache, by rw [hget2]; rfl⟩]

/-- Counterexample to C2 as stated: a two-chunk document makes the first call
return the id twice while the cache-hit second call returns it once, so the
two returned lists differ. -/
theorem process_document_idempotent_cex :
    ¬ ((processDocument
        (ProcCtx.mk (fun s => s) (Provider.mk true (fun _ => []) 1) true
          (fun _ => lit "u") (CacheFs.mk false false false))
        (ProcCfg.mk 5 0 true 60) [] 0 (lit "aaaaaaa") []).1 =
      (processDocument
        (ProcCtx.mk (fun s => s) (Provider.mk true (fun _ => []) 1) true
          (fun _ => lit "u") (CacheFs.mk false false false))
        (ProcCfg.mk 5 0 true 60)
        (processDocument
          (ProcCtx.mk (fun s => s) (Provider.mk true (fun _ => []) 1) true
            (fun _ => lit "u") (CacheFs.mk false false false))
          (ProcCfg.mk 5 0 true 60) [] 0 (lit "aaaaaaa") []).2.1
        0 (lit "aaaaaaa") []).1) := by
  decide

/-- Witness for the amended C2 at a concrete document. -/
theorem process_document_idempotent_witness :
    (lit "hi" ≠ []) ∧
    (ProcCfg.mk 5 0 true 60).cacheEnabled = true ∧
    (cacheGet (fun s : Str => s) (CacheFs.mk false false false) 60 0
      ([] : CacheSt PDoc) (genDocId (fun s => s) (lit "hi") []) = none) ∧
    ((processDocument
        (ProcCtx.mk (fun s => s) (Provider.mk true (fun _ => []) 1) true
          (fun _ => lit "u") (CacheFs.mk false false false))
        (ProcCfg.mk 5 0 true 60) [] 0 (lit "hi") []).1 =
      List.replicate (chunkText 5 0 (lit "hi")).length
        (genDocId (fun s => s) (lit "hi") []) ∧
    processDocument
        (ProcCtx.mk (fun s => s) (Provider.mk true (fun _ => []) 1) true
          (fun _ => lit "u") (CacheFs.mk false false false))
        (ProcCfg.mk 5 0 true 60)
        (processDocument
          (ProcCtx.mk (fun s => s) (Provider.mk true (fun _ => []) 1) true
            (fun _ => lit "u") (CacheFs.mk false false false))
          (ProcCfg.mk 5 0 true 60) [] 0 (lit "hi") []).2.1
        5 (lit "hi") [] =
      ([genDocId (fun s => s) (lit "hi") []],
        (processDocument
          (ProcCtx.mk (fun s => s) (Provider.mk true (fun _ => []) 1) true
            (fun _ => lit "u") (CacheFs.mk false false false))
          (ProcCfg.mk 5 0 true 60) [] 0 (lit "hi") []).2.1,
        (⟨0, 0⟩ : Effects))) :=
  ⟨by decide, rfl, by decide,
    process_document_idempotent
      (ProcCtx.mk (fun s => s) (Provider.mk true (fun _ => []) 1) true
        (fun _ => lit "u") (CacheFs.mk false false false))
      (ProcCfg.mk 5 0 true 60) [] 0 5 (lit "hi") []
      (by decide) rfl rfl rfl rfl (by decide) (by decide)⟩

/-- C10: `delete_document` returns exactly the vector store deletion outcome,
whatever the cache invalidation does; and `DocumentCache.invalidate` on an
absent entry returns success with the directory untouched. -/
theorem delete_document_spec (ctx : ProcCtx) (cfg : ProcCfg)
    (storeDeleteOk : Bool) (st : CacheSt PDoc) (docId : Str) :
    (deleteDocument ctx cfg storeDeleteOk st docId).1 = storeDeleteOk ∧
    (cacheLookup st (ctx.md5Hex docId) = none →
      cacheInvalidate ctx.md5Hex ctx.io st docId = (st, true)) := by
  refine ⟨rfl, fun h => ?_⟩
  unfold cacheInvalidate
  rw [h]

/-- Witness for C10: deletion outcome `false` passes through even with the
cache enabled, and invalidation of an absent id returns `true`. -/
theorem delete_document_spec_witness :
    (deleteDocument
      (ProcCtx.mk (fun s => s) (Provider.mk true (fun _ => []) 1) true
        (fun _ => lit "u") (CacheFs.mk false false false))
      (ProcCfg.mk 5 0 true 60) false [] (lit "d")).1 = false ∧
    cacheLookup ([] : CacheSt PDoc) ((fun s : Str => s) (lit "d")) = none ∧
    cacheInvalidate (fun s : Str => s) (CacheFs.mk false false false)
      ([] : CacheSt PDoc) (lit "d") = ([], true) :=
  ⟨(delete_document_spec
      (ProcCtx.mk (fun s => s) (Provider.mk true (fun _ => []) 1) true
        (fun _ => lit "u") (CacheFs.mk false false false))
      (ProcCfg.mk 5 0 true 60) false [] (lit "d")).1,
    rfl,
    (delete_document_spec
      (ProcCtx.mk (fun s => s) (Provider.mk true (fun _ => []) 1) true
        (fun _ => lit "u") (CacheFs.mk false false false))
      (ProcCfg.mk 5 0 true 60) false [] (lit "d")).2 rfl⟩

/-- C8 (amended): `connect` and `disconnect` are idempotent on both backends,
and Chroma `connect` creates the backing collection when absent and returns
`true`; but Pinecone `connect` never creates its index — when the index is
absent it returns `false`. -/
theorem connectors_connect_spec (server : List Str) (listFail : Bool)
    (p : PineConn) (c : ChromaConn) :
    (server.contains c.collectionName = false →
      (chromaConnect server c).1 = server ++ [c.collectionName] ∧
      (chromaConnect server c).2.2 = true) ∧
    (server.find? (fun n => n == p.indexName) = none →
      (pineconeConnect server listFail p).2 = false) ∧
    pineconeConnect server listFail (pineconeConnect server listFail p).1 =
      pineconeConnect server listFail p ∧
    chromaConnect (chromaConnect server c).1 (chromaConnect server c).2.1 =
      chromaConnect server c ∧
    pineconeDisconnect (pineconeDisconnect p).1 = pineconeDisconnect p ∧
    chromaDisconnect (chromaDisconnect c).1 = chromaDisconnect c := by
  refine ⟨?_, ?_, ?_, ?_, ?_, ?_⟩
  · intro habs
    unfold chromaConnect
    rw [if_neg (by rw [habs]; exact Bool.false_ne_true)]
    exact ⟨rfl, rfl⟩
  · intro hnone
    unfold pineconeConnect
    by_cases hk : p.apiKey = []
    · rw [if_pos hk]
    · rw [if_neg hk]
      by_cases hl : listFail = true
      · rw [if_pos hl]
      · rw [if_neg hl, hnone]
  · rcases p with ⟨ak, iname, pi, idx, ic⟩
    by_cases hk : ak = []
    · simp [pineconeConnect, hk]
    · by_cases hl : listFail = true
      · simp [pineconeConnect, hk, hl]
      · rcases hfind : server.find? (fun n => n == iname) with _ | host <;>
          simp [pineconeConnect, hk, hl, hfind]
  · rcases c with ⟨name, cl, col, ic⟩
    by_cases hmem : name ∈ server
    · simp [chromaConnect, hmem]
    · have h2 : name ∈ server ++ [name] := by simp
      simp [chromaConnect, hmem, h2]
  · rfl
  · rfl

/-- Counterexample to C8 as stated: Pinecone `connect` with the index absent
returns `false` and creates nothing. -/
theorem connectors_connect_cex :
    ¬ (pineconeConnect [lit "other"] false
        (PineConn.mk (lit "key") (lit "main") false none false)).2 = true := by
  decide

/-- Witness for the amended C8 at concrete servers and connectors. -/
theorem connectors_connect_spec_witness :
    ([lit "other"].contains
      (ChromaConn.mk (lit "coll") false none false).collectionName = false) ∧
    ([lit "other"].find? (fun n =>
      n == (PineConn.mk (lit "key") (lit "main") false none false).indexName) =
      none) ∧
    (([lit "other"].contains
        (ChromaConn.mk (lit "coll") false none false).collectionName = false →
      (chromaConnect [lit "other"]
        (ChromaConn.mk (lit "coll") false none false)).1 =
          [lit "other"] ++ [(ChromaConn.mk (lit "coll") false none
            false).collectionName] ∧
      (chromaConnect [lit "other"]
        (ChromaConn.mk (lit "coll") false none false)).2.2 = true) ∧
    ([lit "other"].find? (fun n =>
        n == (PineConn.mk (lit "key") (lit "main") false none
          false).indexName) = none →
      (pineconeConnect [lit "other"] false
        (PineConn.mk (lit "key") (lit "main") false none false)).2 = false) ∧
    pineconeConnect [lit "other"] false
        (pineconeConnect [lit "other"] false
          (PineConn.mk (lit "key") (lit "main") false none false)).1 =
      pineconeConnect [lit "other"] false
        (PineConn.mk (lit "key") (lit "main") false none false) ∧
    chromaConnect
        (chromaConnect [lit "other"]
          (ChromaConn.mk (lit "coll") false none false)).1
        (chromaConnect [lit "other"]
          (ChromaConn.mk (lit "coll") false none false)).2.1 =
      chromaConnect [lit "other"]
        (ChromaConn.mk (lit "coll") false none false) ∧
    pineconeDisconnect
        (pineconeDisconnect
          (PineConn.mk (lit "key") (lit "main") false none false)).1 =
      pineconeDisconnect (PineConn.mk (lit "key") (lit "main") false none
        false) ∧
    chromaDisconnect
        (chromaDisconnect (ChromaConn.mk (lit "coll") false none false)).1 =
      chromaDisconnect (ChromaConn.mk (lit "coll") false none false)) :=
  ⟨by decide, by decide,
    connectors_connect_spec [lit "other"] false
      (PineConn.mk (lit "key") (lit "main") false none false)
      (ChromaConn.mk (lit "coll") false none false)⟩
